import Mathlib

/-!
ExcelVC: a shallow embedding of `excelvc.go`

The Go program watches directory trees, debounces file-system events, and stores
compressed, encrypted versions of spreadsheet files in a relational store.

Conventions of the embedding:

* a Go `[]byte` value is a list of byte values (`Nat`); where re-slicing beyond the
  length matters (`decrypt`) the spare capacity of the backing array is kept too;
* a Go function that can hit a run-time panic returns `Except Fault _`, and a call
  made for its effects ends in an `Exit`;
* the standard-library collaborators (`crypto/cipher`, `compress/gzip`, `crypto/sha256`)
  are records of functions, and the facts about them that a proof uses are explicit
  hypotheses;
* the relational store is a pair of row lists; a transaction works on a copy that
  replaces the store on `Commit` and is dropped on `Rollback`.
-/

namespace ExcelVC

/-- A Go byte slice seen as a value. -/
abbrev Bytes := List Nat

/-- Run-time panics that the modelled code can raise. -/
inductive Fault where
  | nilDereference
  | sliceOutOfRange
deriving DecidableEq, Repr

deriving instance DecidableEq for Except

/-! ## Crypto envelope (`encrypt`, `decrypt`) -/

/-- The `cipher.AEAD` value obtained from `cipher.NewGCM`: `Seal nonce plaintext` is the
ciphertext followed by the tag, `Open nonce sealed` is the plaintext or `none` when the
tag does not verify. -/
structure AEAD where
  NonceSize : Nat
  Seal : Bytes → Bytes → Bytes
  Open : Bytes → Bytes → Option Bytes

/-- The `crypto/aes` + `crypto/cipher` library: for a key it accepts, the GCM instance. -/
structure CryptoLib where
  gcm : Bytes → AEAD

/-- Correctness of the AEAD: opening what was sealed under the same nonce gives the
plaintext back. -/
def CryptoLib.Correct (lib : CryptoLib) : Prop :=
  ∀ (key nonce x : Bytes), nonce.length = (lib.gcm key).NonceSize →
    (lib.gcm key).Open nonce ((lib.gcm key).Seal nonce x) = some x

/-- Whether `aes.NewCipher(key)` succeeds: AES keys are 16, 24 or 32 bytes long. -/
def aesKeyOk (key : Bytes) : Bool :=
  key.length == 16 || key.length == 24 || key.length == 32

/-- The two lines `block, _ := aes.NewCipher(key); gcm, _ := cipher.NewGCM(block)`.
With a key of the wrong length `block` is nil and `NewGCM` calls a method on it. -/
def newGCM (lib : CryptoLib) (key : Bytes) : Except Fault AEAD :=
  if aesKeyOk key then .ok (lib.gcm key) else .error .nilDereference

/-- The buffer `nonce` after `rand.Read(nonce)`: `n` bytes drawn from the random source. -/
def randRead (rand : Nat → Nat) (n : Nat) : Bytes :=
  (List.range n).map rand

/-- Go `encrypt`: `gcm.Seal(nonce, nonce, data, nil)` appends the sealed data to the
nonce. -/
def encrypt (lib : CryptoLib) (key : Bytes) (rand : Nat → Nat) (data : Bytes) :
    Except Fault Bytes :=
  match newGCM lib key with
  | .error f => .error f
  | .ok gcm =>
    let nonce := randRead rand gcm.NonceSize
    .ok (nonce ++ gcm.Seal nonce data)

/-- A Go slice: its elements and the bytes of the backing array between its length
and its capacity. -/
structure ByteSlice where
  elems : Bytes
  spare : Bytes
deriving DecidableEq, Repr

/-- The nil slice. -/
def ByteSlice.nil : ByteSlice := ⟨[], []⟩

/-- Go `s[:n]`: legal up to the capacity. -/
def ByteSlice.sliceTo (s : ByteSlice) (n : Nat) : Except Fault Bytes :=
  if n ≤ s.elems.length + s.spare.length then .ok ((s.elems ++ s.spare).take n)
  else .error .sliceOutOfRange

/-- Go `s[n:]`: legal up to the length. -/
def ByteSlice.sliceFrom (s : ByteSlice) (n : Nat) : Except Fault Bytes :=
  if n ≤ s.elems.length then .ok (s.elems.drop n) else .error .sliceOutOfRange

/-- Go `decrypt`. The error of `gcm.Open` is discarded: on an authentication failure
`out` is nil and is returned like any other result. -/
def decrypt (lib : CryptoLib) (key : Bytes) (data : ByteSlice) : Except Fault Bytes :=
  match newGCM lib key with
  | .error f => .error f
  | .ok gcm =>
    let nonceSize := gcm.NonceSize
    match data.sliceTo nonceSize with
    | .error f => .error f
    | .ok nonce =>
      match data.sliceFrom nonceSize with
      | .error f => .error f
      | .ok cipherText =>
        match gcm.Open nonce cipherText with
        | some out => .ok out
        | none => .ok []

/-! ## Content codec (`compress`, `decompress`) -/

/-- The `compress/gzip` library: `encode x` is the complete stream a writer has emitted
for the input `x` once closed; `headerOk b` tells whether `gzip.NewReader` accepts `b`;
`readAll b` is what `io.ReadAll` collects from an accepted reader (up to the end of the
stream or the first error). -/
structure GzipLib where
  encode : Bytes → Bytes
  headerOk : Bytes → Bool
  readAll : Bytes → Bytes

/-- Correctness of gzip: an encoded stream is accepted and reads back as its input; an
empty input has no header. -/
def GzipLib.Correct (lib : GzipLib) : Prop :=
  (∀ x : Bytes, lib.headerOk (lib.encode x) = true ∧ lib.readAll (lib.encode x) = x) ∧
  lib.headerOk [] = false

/-- A `gzip.Writer` over a `bytes.Buffer`: what was written, and the buffer. -/
structure GzipWriter where
  written : Bytes
  buf : Bytes
deriving DecidableEq, Repr

/-- Go `gzip.NewWriter(&buf)` on an empty buffer. -/
def GzipWriter.new : GzipWriter := ⟨[], []⟩

/-- Go `g.Write(b)`. -/
def GzipWriter.Write (g : GzipWriter) (b : Bytes) : GzipWriter :=
  { g with written := g.written ++ b }

/-- Go `g.Close()`: the stream for everything written is complete in the buffer. -/
def GzipWriter.Close (lib : GzipLib) (g : GzipWriter) : GzipWriter :=
  { g with buf := lib.encode g.written }

/-- Go `compress`. -/
def compress (lib : GzipLib) (b : Bytes) : Bytes :=
  let g := GzipWriter.new
  let g := g.Write b
  let g := g.Close lib
  g.buf

/-- Go `decompress`. When `gzip.NewReader` fails `r` is a nil `*gzip.Reader` and
`io.ReadAll(r)` calls `Read` on it; the error of `io.ReadAll` is discarded. -/
def decompress (lib : GzipLib) (b : Bytes) : Except Fault Bytes :=
  if lib.headerOk b then .ok (lib.readAll b) else .error .nilDereference

/-! ## Path helpers (`path/filepath`, `strings`) and `isExcel` -/

/-- The platform-dependent part of `path/filepath`: which characters separate path
elements, the separator `Base` returns for a path of separators only, and the length of
the leading volume name (always `0` on Unix). -/
structure Platform where
  isPathSeparator : Char → Bool
  Separator : Char
  volumeNameLen : List Char → Nat

/-- The Unix instance of `path/filepath`. -/
def unix : Platform where
  isPathSeparator := fun c => c == '/'
  Separator := '/'
  volumeNameLen := fun _ => 0

/-- The loop of `filepath.Ext`, walking from the last character to the first: the first
argument is `path[:i+1]` reversed, the second is `path[i+1:]`. -/
def extLoop (isSep : Char → Bool) : List Char → List Char → List Char
  | [], _ => []
  | c :: before, after =>
    if isSep c then []
    else if c = '.' then c :: after
    else extLoop isSep before (c :: after)

/-- Go `filepath.Ext`: the suffix beginning at the final dot of the final element of the
path, empty if there is no dot. -/
def Ext (pf : Platform) (path : String) : String :=
  ⟨extLoop pf.isPathSeparator path.data.reverse []⟩

/-- Go `strings.ToLower`. Only the comparison with the ASCII literals `.xls` and `.xlsx`
uses it, and the only characters that Unicode lower-casing sends to `x`, `l` or `s` are
`X`, `L` and `S`, so the ASCII mapping decides the same comparisons. -/
def ToLower (s : String) : String :=
  ⟨s.data.map Char.toLower⟩

/-- Go `strings.HasPrefix`. -/
def HasPrefix (s pre : String) : Bool :=
  pre.data.isPrefixOf s.data

/-- Go `filepath.Base`: the last element of the path, after removing trailing
separators and the volume name. -/
def Base (pf : Platform) (path : String) : String :=
  if path.data = [] then "."
  else
    let p := (path.data.reverse.dropWhile pf.isPathSeparator).reverse
    let p := p.drop (pf.volumeNameLen p)
    let p := (p.reverse.takeWhile (fun c => !pf.isPathSeparator c)).reverse
    if p = [] then ⟨[pf.Separator]⟩ else ⟨p⟩

/-- Go `isExcel`. -/
def isExcel (pf : Platform) (p : String) : Bool :=
  let ext := ToLower (Ext pf p)
  ext == ".xls" || ext == ".xlsx"

/-- The recognised spreadsheet suffixes in the words of the specification: the name,
compared case-insensitively, ends in `.xls` or in `.xlsx`. -/
def hasExcelSuffix (p : String) : Prop :=
  ".xls".data <:+ p.data.map Char.toLower ∨ ".xlsx".data <:+ p.data.map Char.toLower

/-! ## The relational store -/

/-- Modelled from the spec: the declaration of table `excel_files` is not in the source;
the columns are the ones the SQL statements of the program name (id, path, display name,
nullable last hash). -/
structure FileRow where
  id : Nat
  file_path : String
  file_name : String
  last_hash : Option String
deriving DecidableEq, Repr

/-- Modelled from the spec: the declaration of table `excel_versions` is not in the
source; the columns are the ones the SQL statements of the program name (file id,
version number, creation timestamp, payload), the timestamp being set on insert. -/
structure VersionRow where
  file_id : Nat
  version_number : Nat
  created_at : Nat
  file_data : Bytes
deriving DecidableEq, Repr

/-- The store: both tables and the counter from which `LastInsertId` numbers a new
`excel_files` row. No constraint between the tables is modelled. -/
structure Store where
  excel_files : List FileRow
  excel_versions : List VersionRow
  nextId : Nat
deriving DecidableEq, Repr

/-- Which statements of one `saveVersion` transaction return an error. -/
structure StoreFaults where
  begin : Bool
  lookup : Bool
  insertFile : Bool
  nextVersion : Bool
  insertVersion : Bool
  updateHash : Bool
  commit : Bool
deriving DecidableEq, Repr

/-- No statement fails. -/
def StoreFaults.none : StoreFaults := ⟨false, false, false, false, false, false, false⟩

/-- The library values `saveVersion` and `restoreVersion` use, and the key found in the
environment variable `EXCELVC_KEY`. -/
structure Libs where
  sha : Bytes → String
  crypto : CryptoLib
  gzip : GzipLib
  key : Bytes

/-- What one run of `saveVersion(path)` meets outside the store: the successive results
of `os.Stat(path)` (the size, or `none` when the call fails), the result of
`os.ReadFile(path)`, the failing store statements, the random source, and the clock. -/
structure Capture where
  polls : List (Option Int)
  readFile : Option Bytes
  faults : StoreFaults
  rand : Nat → Nat
  now : Nat

/-- How a call ends: it returns, it panics, or it is still waiting after the last
observation. -/
inductive Exit where
  | returned
  | panicked (f : Fault)
  | blocked
deriving DecidableEq, Repr

/-- The loop of `waitStable`: `i, _ := os.Stat(path)` then `i.Size()`; on a failed
`Stat` the value `i` is nil. -/
def waitStableLoop : Int → List (Option Int) → Exit
  | _, [] => .blocked
  | _, none :: _ => .panicked .nilDereference
  | last, some size :: rest =>
    if size = last then .returned else waitStableLoop size rest

/-- Go `waitStable`. -/
def waitStable (polls : List (Option Int)) : Exit :=
  waitStableLoop (-1) polls

/-- The result of `QueryRow("SELECT id, last_hash FROM excel_files WHERE file_path=?")
.Scan(&id, &lastHash)`. -/
inductive Lookup where
  | row (id : Nat) (lastHash : Option String)
  | noRows
  | failed
deriving DecidableEq, Repr

/-- The file lookup of `saveVersion`. -/
def lookupFile (db : Store) (path : String) (fails : Bool) : Lookup :=
  if fails then .failed
  else
    match db.excel_files.find? (fun r => r.file_path == path) with
    | some r => .row r.id r.last_hash
    | none => .noRows

/-- The query `SELECT COALESCE(MAX(version_number),0) FROM excel_versions WHERE file_id=?`. -/
def maxVersion (vs : List VersionRow) (id : Nat) : Nat :=
  ((vs.filter (fun r => r.file_id == id)).map (fun r => r.version_number)).foldr max 0

/-- The statement `UPDATE excel_files SET last_hash=? WHERE id=?`. -/
def updateHash (fs : List FileRow) (id : Nat) (hash : String) : List FileRow :=
  fs.map (fun r => if r.id == id then { r with last_hash := some hash } else r)

/-- The part of `saveVersion` after the file id is known: next version number, version
insert, hash update, commit. `db` is the committed store, `tx` the state inside the
transaction. Errors of the statements are not looked at. -/
def saveVersionTail (L : Libs) (c : Capture) (data : Bytes) (hash : String) (db tx : Store)
    (id : Nat) : Exit × Store :=
  let v := if c.faults.nextVersion then 0 else maxVersion tx.excel_versions id + 1
  match encrypt L.crypto L.key c.rand (compress L.gzip data) with
  | .error f => (.panicked f, db)
  | .ok payload =>
    let tx := if c.faults.insertVersion then tx
      else { tx with excel_versions := tx.excel_versions ++ [⟨id, v, c.now, payload⟩] }
    let tx := if c.faults.updateHash then tx
      else { tx with excel_files := updateHash tx.excel_files id hash }
    if c.faults.commit then (.returned, db) else (.returned, tx)

/-- Go `saveVersion`. The deferred `tx.Rollback()` leaves the committed store `db` in
place on every path that does not commit. -/
def saveVersion (pf : Platform) (L : Libs) (c : Capture) (path : String) (db : Store) :
    Exit × Store :=
  match waitStable c.polls with
  | .panicked f => (.panicked f, db)
  | .blocked => (.blocked, db)
  | .returned =>
    match c.readFile with
    | none => (.returned, db)
    | some data =>
      let hash := L.sha data
      if c.faults.begin then (.panicked .nilDereference, db)
      else
        match lookupFile db path c.faults.lookup with
        | .noRows =>
          if c.faults.insertFile then (.panicked .nilDereference, db)
          else
            let id := db.nextId
            let tx : Store :=
              { db with
                excel_files := db.excel_files ++ [⟨id, path, Base pf path, some hash⟩]
                nextId := db.nextId + 1 }
            saveVersionTail L c data hash db tx id
        | .row id lastHash =>
          if lastHash = some hash then (.returned, db)
          else saveVersionTail L c data hash db db id
        | .failed => saveVersionTail L c data hash db db 0

/-- A capture in which the file is stable and readable with content `data` and every
store statement succeeds. -/
def Capture.good (c : Capture) (data : Bytes) : Prop :=
  waitStable c.polls = .returned ∧ c.readFile = some data ∧ c.faults = StoreFaults.none

/-- Successive captures of one path. -/
def saveVersions (pf : Platform) (L : Libs) (path : String) (db : Store) :
    List Capture → Store
  | [] => db
  | c :: cs => saveVersions pf L path (saveVersion pf L c path db).2 cs

/-- The version numbers stored for a file, in insertion order. -/
def versionNumbers (db : Store) (id : Nat) : List Nat :=
  (db.excel_versions.filter (fun r => r.file_id == id)).map (fun r => r.version_number)

/-- Well-formed stores: a path has at most one row in `excel_files`, and the ids used by
file rows and by version rows are below the counter for new ids. -/
structure Store.WF (db : Store) : Prop where
  paths_nodup : (db.excel_files.map (fun r => r.file_path)).Nodup
  ids_lt : ∀ r ∈ db.excel_files, r.id < db.nextId
  versions_lt : ∀ r ∈ db.excel_versions, r.file_id < db.nextId

/-- The path has rows under the single id `id`, the row found for it holds the digest
`h`, and the versions of `id` are numbered `1..n` in insertion order. -/
structure Tracked (db : Store) (path : String) (id : Nat) (h : String) (n : Nat) : Prop where
  lookup : lookupFile db path false = .row id (some h)
  only : ∀ r ∈ db.excel_files, r.file_path = path → r.id = id
  numbers : versionNumbers db id = List.range' 1 n

/-! ## Restore (`restoreVersion`, `isLocked`) -/

/-- A file on disk: its content, and whether a process may open it for writing now. -/
structure FileEntry where
  content : Bytes
  writable : Bool
deriving DecidableEq, Repr

/-- The file system: the existing files by path. -/
abbrev FS := List (String × FileEntry)

/-- Replace the entry of `path`. -/
def FS.put (fs : FS) (path : String) (e : FileEntry) : FS :=
  (path, e) :: fs.filter (fun kv => kv.1 != path)

/-- Go `os.OpenFile(path, os.O_WRONLY | flags, perm)`: `none` when the call fails,
otherwise the file system once the file is open. -/
def OpenFile (fs : FS) (path : String) (create trunc : Bool) : Option FS :=
  if path = "" then none
  else
    match fs.lookup path with
    | some e =>
      if e.writable then some (if trunc then fs.put path { e with content := [] } else fs)
      else none
    | none =>
      if create then some (fs.put path ⟨[], true⟩) else none

/-- Go `isLocked`, with the file system after the probe. -/
def isLocked (fs : FS) (path : String) : Bool × FS :=
  match OpenFile fs path false false with
  | none => (true, fs)
  | some fs1 => (false, fs1)

/-- Go `os.WriteFile(path, data, 0644)`; its error is not looked at. -/
def WriteFile (fs : FS) (path : String) (data : Bytes) : FS :=
  match OpenFile fs path true true with
  | none => fs
  | some fs1 => fs1.put path ⟨data, true⟩

/-- The steps of `restoreVersion` that act outside the handler. -/
inductive Action where
  | queryPath (id : Nat)
  | probe (path : String)
  | queryData (id v : Nat)
  | decrypted
  | decompressed
  | wrote (path : String) (data : Bytes)
deriving DecidableEq, Repr

/-- The outcome of `restoreVersion`: the text written to the response (or the panic
that ended the handler), the file system and the store afterwards, and the steps taken. -/
structure Restored where
  response : Except Fault String
  fs : FS
  db : Store
  actions : List Action

/-- The query `SELECT file_path FROM excel_files WHERE id=?` scanned into `path`, which
stays empty when no row is found. -/
def queryPath (db : Store) (id : Nat) : String :=
  match db.excel_files.find? (fun r => r.id == id) with
  | some r => r.file_path
  | none => ""

/-- The query `SELECT file_data FROM excel_versions WHERE file_id=? AND version_number=?`
scanned into `data`, which stays nil when no row is found; `spare` is the unused
capacity of the slice the driver allocates. -/
def queryData (db : Store) (id v : Nat) (spare : Bytes) : ByteSlice :=
  match db.excel_versions.find? (fun r => r.file_id == id && r.version_number == v) with
  | some r => ⟨r.file_data, spare⟩
  | none => ByteSlice.nil

/-- Go `restoreVersion` for the request parameters `id` and `v`. -/
def restoreVersion (L : Libs) (fs : FS) (db : Store) (id v : Nat) (spare : Bytes) :
    Restored :=
  let path := queryPath db id
  match isLocked fs path with
  | (true, fs1) =>
    ⟨.ok "File is open in Excel. Close it first.", fs1, db, [.queryPath id, .probe path]⟩
  | (false, fs1) =>
    let data := queryData db id v spare
    match decrypt L.crypto L.key data with
    | .error f => ⟨.error f, fs1, db, [.queryPath id, .probe path, .queryData id v]⟩
    | .ok plain =>
      match decompress L.gzip plain with
      | .error f =>
        ⟨.error f, fs1, db, [.queryPath id, .probe path, .queryData id v, .decrypted]⟩
      | .ok out =>
        ⟨.ok "Restored successfully. Reopen Excel.", WriteFile fs1 path out, db,
          [.queryPath id, .probe path, .queryData id v, .decrypted, .decompressed,
            .wrote path out]⟩

/-! ## Debounce (`handleEvent`) -/

/-- A `*time.Timer` made by `time.AfterFunc`: the allocation number that identifies it,
the path its function passes to `saveVersion`, the time (in milliseconds) at which it is
due, and whether it was stopped or has fired. -/
structure Timer where
  id : Nat
  name : String
  deadline : Nat
  stopped : Bool
  fired : Bool
deriving DecidableEq, Repr

/-- A timer that will still fire. -/
def Timer.armed (t : Timer) : Bool :=
  !t.stopped && !t.fired

/-- Go `t.Stop()`: prevents the timer from firing unless it already fired or was
stopped. -/
def Timer.Stop (t : Timer) : Timer :=
  if t.armed then { t with stopped := true } else t

/-- The state of the debounce engine: the clock, every timer allocated so far, the map
`debounce` from names to timers, and the calls `saveVersion(name)` started so far with
their start times. -/
structure Debounce where
  now : Nat
  timers : List Timer
  debounce : List (String × Nat)
  captures : List (String × Nat)
deriving DecidableEq, Repr

/-- The state at program start. -/
def Debounce.init : Debounce := ⟨0, [], [], []⟩

/-- The quiet period `1*time.Second`, in milliseconds. -/
def quietPeriod : Nat := 1000

/-- The guard of `handleEvent`: the event is kept. -/
def qualifies (pf : Platform) (name : String) : Bool :=
  !(!isExcel pf name || HasPrefix (Base pf name) "~$")

/-- Go `handleEvent` for an event with name `name`, run at time `s.now`. -/
def handleEvent (pf : Platform) (s : Debounce) (name : String) : Debounce :=
  if !isExcel pf name || HasPrefix (Base pf name) "~$" then s
  else
    let timers :=
      match s.debounce.lookup name with
      | some i => s.timers.map (fun t => if t.id == i then t.Stop else t)
      | none => s.timers
    let t : Timer := ⟨timers.length, name, s.now + quietPeriod, false, false⟩
    { s with
      timers := timers ++ [t]
      debounce := (name, t.id) :: s.debounce.filter (fun kv => kv.1 != name) }

/-- Whether a timer fires when the clock reaches `t`. -/
def Timer.due (tm : Timer) (t : Nat) : Bool :=
  tm.armed && decide (tm.deadline ≤ t)

/-- The clock advances to `t`: every armed timer due by then fires, which starts
`saveVersion` for its name at its deadline. -/
def advance (s : Debounce) (t : Nat) : Debounce :=
  { s with
    now := max s.now t
    timers := s.timers.map (fun tm => if tm.due t then { tm with fired := true } else tm)
    captures := s.captures ++
      (s.timers.filter (fun tm => tm.due t)).map (fun tm => (tm.name, tm.deadline)) }

/-- An event for `name` delivered at time `t`. -/
def eventAt (pf : Platform) (s : Debounce) (t : Nat) (name : String) : Debounce :=
  handleEvent pf (advance s t) name

/-- A burst of events for one name, delivered at the given times. -/
def burst (pf : Platform) (name : String) (s : Debounce) : List Nat → Debounce
  | [] => s
  | t :: ts => burst pf name (eventAt pf s t name) ts

/-- The states the engine can be in: from the start, events are delivered and time
passes. -/
inductive Reachable (pf : Platform) : Debounce → Prop where
  | init : Reachable pf Debounce.init
  | event (s : Debounce) (name : String) : Reachable pf s → Reachable pf (handleEvent pf s name)
  | tick (s : Debounce) (t : Nat) : Reachable pf s → Reachable pf (advance s t)

/-- The armed timers of a name. -/
def armedFor (s : Debounce) (name : String) : List Timer :=
  s.timers.filter (fun t => t.armed && t.name == name)

/-- The start times of the captures of a name. -/
def capturesOf (s : Debounce) (name : String) : List Nat :=
  (s.captures.filter (fun c => c.1 == name)).map (fun c => c.2)

/-- The deadlines of the armed timers of a name. -/
def pending (s : Debounce) (name : String) : List Nat :=
  (armedFor s name).map (fun t => t.deadline)

/-- The invariant of the debounce engine: timers are numbered in allocation order, every
armed timer is the one the map holds for its name, and it is due in the future. -/
structure Debounce.Inv (s : Debounce) : Prop where
  ids : s.timers.map (fun t => t.id) = List.range s.timers.length
  armed_mapped : ∀ t ∈ s.timers, t.armed = true → s.debounce.lookup t.name = some t.id
  armed_future : ∀ t ∈ s.timers, t.armed = true → s.now < t.deadline

/-- A small AEAD that satisfies `CryptoLib.Correct`: the tag is the nonce, put in front. -/
def demoCrypto : CryptoLib where
  gcm := fun _ =>
    { NonceSize := 2
      Seal := fun nonce x => nonce ++ x
      Open := fun nonce c => if nonce.isPrefixOf c then some (c.drop nonce.length) else none }

/-- A small codec that satisfies `GzipLib.Correct`: the two gzip magic bytes, then the
data. -/
def demoGzip : GzipLib where
  encode := fun x => 31 :: 139 :: x
  headerOk := fun b => b.take 2 == [31, 139]
  readAll := fun b => b.drop 2

/-- A 16-byte key. -/
def demoKey : Bytes := List.replicate 16 7


/-- A toy digest: the bytes as characters (injective, unlike a real digest). -/
def demoSha (b : Bytes) : String :=
  ⟨b.map Char.ofNat⟩

/-- The demo libraries with a valid key. -/
def demoLibs : Libs := ⟨demoSha, demoCrypto, demoGzip, demoKey⟩

/-- A capture of a stable, readable file with content `d` and no failing statement. -/
def demoCapture (d : Bytes) : Capture :=
  ⟨[some 3, some 3], some d, StoreFaults.none, fun i => i, 5⟩

/-- A store that tracks one file, with one version of content `[1]`. -/
def demoStore : Store :=
  ⟨[⟨1, "/d/a.xlsx", "a.xlsx", some (demoSha [1])⟩], [⟨1, 1, 5, [0, 1, 0, 1, 31, 139, 1]⟩], 2⟩

/-- The same store with one bit of the stored payload flipped. -/
def demoTamperedStore : Store :=
  ⟨[⟨1, "/d/a.xlsx", "a.xlsx", some (demoSha [1])⟩], [⟨1, 1, 5, [0, 1, 0, 3, 31, 139, 1]⟩], 2⟩

/-- The payload that `encrypt (compress [1])` produces with the demo libraries. -/
def demoPayload : Bytes := [0, 1, 0, 1, 31, 139, 1]

/-- A file system in which the tracked file exists and is held open by another process. -/
def demoLockedFS : FS := [("/d/a.xlsx", ⟨[7, 7], false⟩)]

/-- A file system in which the tracked file exists and can be written. -/
def demoFS : FS := [("/d/a.xlsx", ⟨[7, 7], true⟩)]

/-! ## Library facts for the demo instances -/

theorem demoCrypto_correct : demoCrypto.Correct := by
  intro key nonce x _
  simp [demoCrypto]

theorem demoGzip_correct : demoGzip.Correct := by
  refine ⟨fun x => ⟨?_, ?_⟩, ?_⟩ <;> simp [demoGzip]

/-! ## Crypto envelope and codec -/

theorem randRead_length (rand : Nat → Nat) (n : Nat) : (randRead rand n).length = n := by
  simp [randRead]

/-- C4: for a correct AEAD and a key of valid length, `encrypt` returns the drawn nonce
followed by the sealed data, and `decrypt` of that value (whatever the spare capacity
of the slice and whatever the nonce) returns the original bytes. -/
theorem decrypt_encrypt (lib : CryptoLib) (hlib : lib.Correct) (key : Bytes)
    (hkey : aesKeyOk key = true) (rand : Nat → Nat) (x spare : Bytes) :
    ∃ sealed : Bytes,
      encrypt lib key rand x = .ok sealed ∧
      sealed = randRead rand (lib.gcm key).NonceSize ++
        (lib.gcm key).Seal (randRead rand (lib.gcm key).NonceSize) x ∧
      decrypt lib key ⟨sealed, spare⟩ = .ok x := by
  refine ⟨_, ?_, rfl, ?_⟩
  · simp [encrypt, newGCM, hkey]
  · have hlen := randRead_length rand (lib.gcm key).NonceSize
    have hopen := hlib key (randRead rand (lib.gcm key).NonceSize) x hlen
    simp [decrypt, newGCM, hkey, ByteSlice.sliceTo, ByteSlice.sliceFrom, hlen,
      List.take_append_of_le_length, hopen, Nat.add_assoc]

/-- C4 at a concrete input: the demo AEAD, a 16-byte key, plaintext `[1, 2, 3]`. -/
theorem decrypt_encrypt_witness :
    demoCrypto.Correct ∧ aesKeyOk demoKey = true ∧
    ∃ sealed : Bytes,
      encrypt demoCrypto demoKey (fun i => i + 40) [1, 2, 3] = .ok sealed ∧
      sealed = randRead (fun i => i + 40) (demoCrypto.gcm demoKey).NonceSize ++
        (demoCrypto.gcm demoKey).Seal
          (randRead (fun i => i + 40) (demoCrypto.gcm demoKey).NonceSize) [1, 2, 3] ∧
      decrypt demoCrypto demoKey ⟨sealed, [0, 0]⟩ = .ok [1, 2, 3] :=
  ⟨demoCrypto_correct, by decide,
    decrypt_encrypt demoCrypto demoCrypto_correct demoKey (by decide) (fun i => i + 40)
      [1, 2, 3] [0, 0]⟩

/-- C10: for a correct gzip library, `decompress (compress x)` returns `x`, for every byte
sequence `x`, the empty one included. -/
theorem decompress_compress (lib : GzipLib) (hlib : lib.Correct) (x : Bytes) :
    decompress lib (compress lib x) = .ok x ∧ decompress lib (compress lib []) = .ok [] := by
  have h := hlib.1
  simp [decompress, compress, GzipWriter.new, GzipWriter.Write, GzipWriter.Close, h]

/-- C10 at a concrete input: the demo codec and the bytes `[80, 75, 3, 4]`. -/
theorem decompress_compress_witness :
    demoGzip.Correct ∧
    decompress demoGzip (compress demoGzip [80, 75, 3, 4]) = .ok [80, 75, 3, 4] ∧
    decompress demoGzip (compress demoGzip []) = .ok [] :=
  ⟨demoGzip_correct, decompress_compress demoGzip demoGzip_correct [80, 75, 3, 4]⟩

/-! ## Restore -/

theorem isLocked_fs (fs : FS) (path : String) : (isLocked fs path).2 = fs := by
  unfold isLocked OpenFile
  by_cases hp : path = ""
  · simp [hp]
  · cases fs.lookup path with
    | none => simp [hp]
    | some e => cases hw : e.writable <;> simp [hp, hw]

/-- C6: when the target of the requested file id cannot be opened for writing,
`restoreVersion` answers that the file is open and does nothing else: the file system
and the store are as before, and the only steps taken are the path query and the probe
(no payload is fetched, decrypted or written). -/
theorem restoreVersion_locked (L : Libs) (fs : FS) (db : Store) (id v : Nat) (spare : Bytes)
    (hlocked : (isLocked fs (queryPath db id)).1 = true) :
    (restoreVersion L fs db id v spare).response = .ok "File is open in Excel. Close it first." ∧
    (restoreVersion L fs db id v spare).fs = fs ∧
    (restoreVersion L fs db id v spare).db = db ∧
    (restoreVersion L fs db id v spare).actions = [.queryPath id, .probe (queryPath db id)] := by
  have hl : isLocked fs (queryPath db id) = (true, fs) :=
    Prod.ext hlocked (isLocked_fs fs (queryPath db id))
  simp [restoreVersion, hl]

/-- C6 at a concrete input: the tracked file exists and is held open elsewhere. -/
theorem restoreVersion_locked_witness :
    (isLocked demoLockedFS (queryPath demoStore 1)).1 = true ∧
    (restoreVersion demoLibs demoLockedFS demoStore 1 1 []).response =
      .ok "File is open in Excel. Close it first." ∧
    (restoreVersion demoLibs demoLockedFS demoStore 1 1 []).fs = demoLockedFS ∧
    (restoreVersion demoLibs demoLockedFS demoStore 1 1 []).db = demoStore ∧
    (restoreVersion demoLibs demoLockedFS demoStore 1 1 []).actions =
      [.queryPath 1, .probe (queryPath demoStore 1)] :=
  ⟨by decide, restoreVersion_locked demoLibs demoLockedFS demoStore 1 1 [] (by decide)⟩

/-- What `decrypt` does on an input it cannot open, for a key of valid length: on an
input shorter than one nonce one of the two slice expressions is out of range, and on an
input of at least one nonce whose tag does not verify the error of `gcm.Open` is dropped
and the empty (nil) sequence is returned as a normal result. -/
theorem decrypt_unopenable (lib : CryptoLib) (key : Bytes) (hkey : aesKeyOk key = true)
    (data : ByteSlice) :
    (data.elems.length < (lib.gcm key).NonceSize →
      decrypt lib key data = .error .sliceOutOfRange) ∧
    ((lib.gcm key).NonceSize ≤ data.elems.length →
      (lib.gcm key).Open (data.elems.take (lib.gcm key).NonceSize)
        (data.elems.drop (lib.gcm key).NonceSize) = none →
      decrypt lib key data = .ok []) := by
  constructor
  · intro hlt
    have h2 : ¬ (lib.gcm key).NonceSize ≤ data.elems.length := by omega
    by_cases h1 : (lib.gcm key).NonceSize ≤ data.elems.length + data.spare.length
    · simp [decrypt, newGCM, hkey, ByteSlice.sliceTo, ByteSlice.sliceFrom, h1, h2]
    · simp [decrypt, newGCM, hkey, ByteSlice.sliceTo, h1]
  · intro hle hopen
    have h1 : (lib.gcm key).NonceSize ≤ data.elems.length + data.spare.length := by omega
    simp [decrypt, newGCM, hkey, ByteSlice.sliceTo, ByteSlice.sliceFrom, h1, hle,
      List.take_append_of_le_length, hopen]

/-- C5 (defect): `decrypt` reports no failure. A sealed message with one bit of its tag
flipped does not verify, yet `decrypt` returns normally with the empty sequence, the value
it also returns for a sealed empty message, so its caller cannot tell the two apart. On an
input shorter than one nonce it ends in a slice-bounds panic. `restoreVersion` on a stored
payload with a flipped bit is stopped only by the nil dereference inside `decompress`. -/
theorem decrypt_tampered_returns_empty :
    encrypt demoCrypto demoKey (fun i => i + 40) [9, 9] = .ok [40, 41, 40, 41, 9, 9] ∧
    (demoCrypto.gcm demoKey).Open [40, 41] [40, 43, 9, 9] = none ∧
    decrypt demoCrypto demoKey ⟨[40, 41, 40, 43, 9, 9], []⟩ = .ok [] ∧
    encrypt demoCrypto demoKey (fun i => i + 40) [] = .ok [40, 41, 40, 41] ∧
    decrypt demoCrypto demoKey ⟨[40, 41, 40, 41], []⟩ = .ok [] ∧
    decrypt demoCrypto demoKey ⟨[40], [0, 0, 0]⟩ = .error .sliceOutOfRange ∧
    decrypt demoCrypto demoKey ByteSlice.nil = .error .sliceOutOfRange ∧
    decrypt demoLibs.crypto demoLibs.key (queryData demoTamperedStore 1 1 []) = .ok [] ∧
    (restoreVersion demoLibs demoFS demoTamperedStore 1 1 []).response =
      .error .nilDereference := by
  refine ⟨?_, ?_, ?_, ?_, ?_, ?_, ?_, ?_, ?_⟩ <;> decide

/-! ## Stability wait -/

/-- C9 (defect): at whatever poll `os.Stat` fails (after any previous sample `last`,
the first poll included), `waitStable` dereferences the nil result and panics; and
`saveVersion` for a path that is gone at the first poll ends in that panic instead of
returning, with the store as before. -/
theorem saveVersion_vanished_panics (pf : Platform) (L : Libs) (path : String) (db : Store)
    (last : Int) (rest : List (Option Int)) (readFile : Option Bytes) (faults : StoreFaults)
    (rand : Nat → Nat) (now : Nat) :
    waitStableLoop last (none :: rest) = .panicked .nilDereference ∧
    waitStable (none :: rest) = .panicked .nilDereference ∧
    waitStable (some 10 :: none :: rest) = .panicked .nilDereference ∧
    saveVersion pf L ⟨none :: rest, readFile, faults, rand, now⟩ path db =
      (.panicked .nilDereference, db) := by
  refine ⟨rfl, rfl, ?_, ?_⟩
  · simp [waitStable, waitStableLoop]
  · simp [saveVersion, waitStable, waitStableLoop]

/-! ## Capture: file lookup -/

theorem find_path_of_mem {fs : List FileRow}
    (hnd : (fs.map (fun r => r.file_path)).Nodup) {r : FileRow} (hr : r ∈ fs) :
    fs.find? (fun x => x.file_path == r.file_path) = some r := by
  induction fs with
  | nil => simp at hr
  | cons a l ih =>
    rw [List.map_cons, List.nodup_cons] at hnd
    rcases List.mem_cons.mp hr with rfl | hmem
    · simp
    · have hne : a.file_path ≠ r.file_path := by
        intro heq
        exact hnd.1 (heq ▸ List.mem_map_of_mem _ hmem)
      simp [List.find?_cons, hne, ih hnd.2 hmem]

theorem lookupFile_of_mem {db : Store} (hwf : db.WF) {r : FileRow} (hr : r ∈ db.excel_files) :
    lookupFile db r.file_path false = .row r.id r.last_hash := by
  simp [lookupFile, find_path_of_mem hwf.paths_nodup hr]

/-! ## Capture: failing statements -/

/-- C3 (defect): statements that fail inside the transaction do not stop it. In the demo
store (one file, one version, digest of `[1]`), a capture of new content `[7]` whose
version insert fails still updates `last_hash` and commits: the store changes and holds a
digest without a version. With a failing next-version query the version is stored under
number `0`. -/
theorem saveVersion_failed_statement_commits :
    saveVersion unix demoLibs
        ⟨[some 3, some 3], some [7], ⟨false, false, false, false, true, false, false⟩,
          fun i => i, 5⟩ "/d/a.xlsx" demoStore =
      (.returned,
        ⟨[⟨1, "/d/a.xlsx", "a.xlsx", some (demoSha [7])⟩], [⟨1, 1, 5, demoPayload⟩], 2⟩) ∧
    saveVersion unix demoLibs
        ⟨[some 3, some 3], some [7], ⟨false, false, false, true, false, false, false⟩,
          fun i => i, 5⟩ "/d/a.xlsx" demoStore =
      (.returned,
        ⟨[⟨1, "/d/a.xlsx", "a.xlsx", some (demoSha [7])⟩],
          [⟨1, 1, 5, demoPayload⟩, ⟨1, 0, 5, [0, 1, 0, 1, 31, 139, 7]⟩], 2⟩) ∧
    demoStore =
      ⟨[⟨1, "/d/a.xlsx", "a.xlsx", some (demoSha [1])⟩], [⟨1, 1, 5, demoPayload⟩], 2⟩ := by
  refine ⟨?_, ?_, ?_⟩ <;> decide

/-! ## Capture: version numbering -/

theorem foldr_max_range' (n a : Nat) : (List.range' 1 n).foldr max a = max n a := by
  induction n generalizing a with
  | zero => simp
  | succ k ih =>
    rw [List.range'_concat, List.foldr_append, ih]
    simp only [List.foldr_cons, List.foldr_nil, Nat.mul_one]
    omega

theorem maxVersion_of_numbers {db : Store} {id n : Nat}
    (h : versionNumbers db id = List.range' 1 n) : maxVersion db.excel_versions id = n := by
  unfold versionNumbers at h
  unfold maxVersion
  rw [h, foldr_max_range']
  simp

theorem encrypt_ok (lib : CryptoLib) (key : Bytes) (hkey : aesKeyOk key = true)
    (rand : Nat → Nat) (x : Bytes) : ∃ p, encrypt lib key rand x = .ok p := by
  simp [encrypt, newGCM, hkey]

theorem find_updateHash (fs : List FileRow) (path : String) (id : Nat) (x : Option String)
    (h : String)
    (hf : (fs.find? (fun r => r.file_path == path)).map (fun r => (r.id, r.last_hash))
      = some (id, x)) :
    ((updateHash fs id h).find? (fun r => r.file_path == path)).map
      (fun r => (r.id, r.last_hash)) = some (id, some h) := by
  induction fs with
  | nil => simp at hf
  | cons a l ih =>
    by_cases hp : a.file_path = path
    · have hid : a.id = id := by
        have h2 : a.id = id ∧ a.last_hash = x := by simpa [List.find?_cons, hp] using hf
        exact h2.1
      simp [updateHash, List.find?_cons, hp, hid]
    · have hl : (l.find? (fun r => r.file_path == path)).map (fun r => (r.id, r.last_hash))
          = some (id, x) := by
        simpa [List.find?_cons, hp] using hf
      have := ih hl
      by_cases hi : a.id = id
      · simpa [updateHash, List.find?_cons, hp, hi] using this
      · simpa [updateHash, List.find?_cons, hp, hi] using this

theorem lookupFile_row_iff (db : Store) (path : String) (id : Nat) (x : Option String) :
    lookupFile db path false = .row id x ↔
      (db.excel_files.find? (fun r => r.file_path == path)).map
        (fun r => (r.id, r.last_hash)) = some (id, x) := by
  unfold lookupFile
  cases db.excel_files.find? (fun r => r.file_path == path) <;> simp

theorem saveVersionTail_good (L : Libs) (c : Capture) (data : Bytes) (hash : String)
    (db tx : Store) (id : Nat) (hkey : aesKeyOk L.key = true)
    (hf : c.faults = StoreFaults.none) :
    ∃ p, saveVersionTail L c data hash db tx id =
      (.returned,
        ⟨updateHash tx.excel_files id hash,
          tx.excel_versions ++ [⟨id, maxVersion tx.excel_versions id + 1, c.now, p⟩],
          tx.nextId⟩) := by
  obtain ⟨p, hp⟩ := encrypt_ok L.crypto L.key hkey c.rand (compress L.gzip data)
  exact ⟨p, by simp [saveVersionTail, hf, StoreFaults.none, hp]⟩

theorem updateHash_path (fs : List FileRow) (id : Nat) (h : String) {r : FileRow}
    (hr : r ∈ updateHash fs id h) : ∃ r0 ∈ fs, r0.file_path = r.file_path ∧ r0.id = r.id := by
  unfold updateHash at hr
  obtain ⟨r0, hr0, rfl⟩ := List.mem_map.mp hr
  refine ⟨r0, hr0, ?_, ?_⟩ <;> split <;> rfl

theorem versionNumbers_append (db : Store) (fs : List FileRow) (k : Nat) (id : Nat)
    (row : VersionRow) :
    versionNumbers ⟨fs, db.excel_versions ++ [row], k⟩ id =
      versionNumbers db id ++ (if row.file_id = id then [row.version_number] else []) := by
  unfold versionNumbers
  by_cases h : row.file_id = id <;> simp [List.filter_append, List.filter_cons, h]

theorem lookupFile_noRows {db : Store} {path : String}
    (hl : lookupFile db path false = .noRows) :
    db.excel_files.find? (fun r => r.file_path == path) = none := by
  unfold lookupFile at hl
  cases hfd : db.excel_files.find? (fun r => r.file_path == path) with
  | none => rfl
  | some r => simp [hfd] at hl

/-- The row found for a path after its hash was updated. -/
theorem lookupFile_updated (db : Store) (path : String) (id : Nat) (x : Option String)
    (h : String) (vs : List VersionRow) (k : Nat)
    (hl : lookupFile db path false = .row id x) :
    lookupFile ⟨updateHash db.excel_files id h, vs, k⟩ path false = .row id (some h) := by
  rw [lookupFile_row_iff]
  exact find_updateHash db.excel_files path id x h ((lookupFile_row_iff db path id x).mp hl)

/-- The row found for a path after its row was inserted. -/
theorem lookupFile_inserted (db : Store) (path name : String) (h : String)
    (vs : List VersionRow) (k : Nat) (hl : lookupFile db path false = .noRows) :
    lookupFile
      ⟨updateHash (db.excel_files ++ [⟨db.nextId, path, name, some h⟩]) db.nextId h, vs, k⟩
      path false = .row db.nextId (some h) := by
  have hfind2 : (updateHash db.excel_files db.nextId h).find?
      (fun r => r.file_path == path) = none := by
    simp only [List.find?_eq_none]
    intro r hr
    obtain ⟨r0, hr0, hp0, _⟩ := updateHash_path _ _ _ hr
    have := List.find?_eq_none.mp (lookupFile_noRows hl) r0 hr0
    simpa [← hp0] using this
  have happ : updateHash (db.excel_files ++ [⟨db.nextId, path, name, some h⟩]) db.nextId h =
      updateHash db.excel_files db.nextId h ++ [⟨db.nextId, path, name, some h⟩] := by
    simp [updateHash]
  rw [lookupFile_row_iff]
  simp only [happ, List.find?_append, hfind2]
  simp

/-- The result of a successful capture of new content for a path that has a row. -/
theorem saveVersion_good_row (pf : Platform) (L : Libs) (c : Capture) (path : String)
    (db : Store) (data : Bytes) (id : Nat) (x : Option String)
    (hkey : aesKeyOk L.key = true) (hgood : c.good data)
    (hl : lookupFile db path false = .row id x) (hx : x ≠ some (L.sha data)) :
    ∃ p, saveVersion pf L c path db =
      (.returned,
        ⟨updateHash db.excel_files id (L.sha data),
          db.excel_versions ++ [⟨id, maxVersion db.excel_versions id + 1, c.now, p⟩],
          db.nextId⟩) := by
  obtain ⟨hw, hread, hf⟩ := hgood
  obtain ⟨p, hp⟩ := saveVersionTail_good L c data (L.sha data) db db id hkey hf
  have hfl : c.faults.lookup = false := by rw [hf]; rfl
  have hfb : c.faults.begin = false := by rw [hf]; rfl
  refine ⟨p, ?_⟩
  unfold saveVersion
  simp only [hw, hread, hfl, hfb, hl, hx, if_false, hp, Bool.false_eq_true]

/-- The result of a successful capture for a path that has no row. -/
theorem saveVersion_good_new (pf : Platform) (L : Libs) (c : Capture) (path : String)
    (db : Store) (data : Bytes) (hkey : aesKeyOk L.key = true) (hgood : c.good data)
    (hl : lookupFile db path false = .noRows) :
    ∃ p, saveVersion pf L c path db =
      (.returned,
        ⟨updateHash (db.excel_files ++ [⟨db.nextId, path, Base pf path, some (L.sha data)⟩])
            db.nextId (L.sha data),
          db.excel_versions ++
            [⟨db.nextId, maxVersion db.excel_versions db.nextId + 1, c.now, p⟩],
          db.nextId + 1⟩) := by
  obtain ⟨hw, hread, hf⟩ := hgood
  obtain ⟨p, hp⟩ := saveVersionTail_good L c data (L.sha data) db
    ⟨db.excel_files ++ [⟨db.nextId, path, Base pf path, some (L.sha data)⟩],
      db.excel_versions, db.nextId + 1⟩ db.nextId hkey hf
  have hfl : c.faults.lookup = false := by rw [hf]; rfl
  have hfb : c.faults.begin = false := by rw [hf]; rfl
  have hfi : c.faults.insertFile = false := by rw [hf]; rfl
  refine ⟨p, ?_⟩
  unfold saveVersion
  simp only [hw, hread, hfl, hfb, hfi, hl, if_false, hp, Bool.false_eq_true]

/-- A later capture of new content adds the next number. -/
theorem saveVersion_tracked_step (pf : Platform) (L : Libs) (c : Capture) (path : String)
    (db : Store) (data : Bytes) (id : Nat) (h : String) (n : Nat)
    (hkey : aesKeyOk L.key = true) (hgood : c.good data) (ht : Tracked db path id h n)
    (hne : L.sha data ≠ h) :
    Tracked (saveVersion pf L c path db).2 path id (L.sha data) (n + 1) := by
  have hx : some h ≠ some (L.sha data) := fun e => hne (Option.some.inj e).symm
  obtain ⟨p, hp⟩ := saveVersion_good_row pf L c path db data id (some h) hkey hgood ht.lookup hx
  rw [hp]
  refine ⟨lookupFile_updated db path id (some h) _ _ _ ht.lookup, ?_, ?_⟩
  · intro r hr hpath
    obtain ⟨r0, hr0, hp0, hid0⟩ := updateHash_path _ _ _ hr
    rw [← hid0]
    exact ht.only r0 hr0 (hp0.trans hpath)
  · rw [versionNumbers_append, ht.numbers, maxVersion_of_numbers ht.numbers]
    simp [List.range'_concat, Nat.add_comm]

/-- The first capture of an unknown path creates the file row and version `1`. -/
theorem saveVersion_tracked_first (pf : Platform) (L : Libs) (c : Capture) (path : String)
    (db : Store) (data : Bytes) (hkey : aesKeyOk L.key = true) (hgood : c.good data)
    (hwf : db.WF) (hnew : ∀ r ∈ db.excel_files, r.file_path ≠ path) :
    Tracked (saveVersion pf L c path db).2 path db.nextId (L.sha data) 1 := by
  have hfind : db.excel_files.find? (fun r => r.file_path == path) = none := by
    simp only [List.find?_eq_none]
    intro r hr
    simpa using hnew r hr
  have hl : lookupFile db path false = .noRows := by simp [lookupFile, hfind]
  obtain ⟨p, hp⟩ := saveVersion_good_new pf L c path db data hkey hgood hl
  rw [hp]
  have hnone : (db.excel_versions.filter (fun r => r.file_id == db.nextId)) = [] := by
    simp only [List.filter_eq_nil_iff]
    intro r hr
    have := hwf.versions_lt r hr
    simp
    omega
  refine ⟨lookupFile_inserted db path _ _ _ _ hl, ?_, ?_⟩
  · intro r hr hpath
    obtain ⟨r0, hr0, hp0, hid0⟩ := updateHash_path _ _ _ hr
    rw [← hid0]
    rcases List.mem_append.mp hr0 with hmem | hmem
    · exact absurd (hp0.trans hpath) (hnew r0 hmem)
    · simp at hmem
      rw [hmem]
  · rw [versionNumbers_append]
    simp [versionNumbers, maxVersion, hnone]

theorem lookupFile_row_mem {db : Store} {path : String} {id : Nat} {x : Option String}
    (h : lookupFile db path false = .row id x) :
    ∃ r ∈ db.excel_files, r.file_path = path ∧ r.id = id ∧ r.last_hash = x := by
  unfold lookupFile at h
  cases hf : db.excel_files.find? (fun r => r.file_path == path) with
  | none => simp [hf] at h
  | some r =>
    simp only [hf, Bool.false_eq_true, if_false, Lookup.row.injEq] at h
    have hp := List.find?_some hf
    exact ⟨r, List.mem_of_find?_eq_some hf, by simpa using hp, h.1, h.2⟩

theorem saveVersions_tracked (pf : Platform) (L : Libs) (path : String)
    (hkey : aesKeyOk L.key = true) (cs : List Capture) (datas : List Bytes)
    (hgood : List.Forall₂ Capture.good cs datas) :
    ∀ (db : Store) (id : Nat) (h : String) (n : Nat), Tracked db path id h n →
      List.Chain (fun a b => a ≠ b) h (datas.map L.sha) →
      ∃ h2, Tracked (saveVersions pf L path db cs) path id h2 (n + cs.length) := by
  induction hgood with
  | nil =>
    intro db id h n ht _
    exact ⟨h, by simpa [saveVersions] using ht⟩
  | cons hc _ ih =>
    intro db id h n ht hchain
    rw [List.map_cons, List.chain_cons] at hchain
    have hstep := saveVersion_tracked_step pf L _ path db _ id h n hkey hc ht
      (fun e => hchain.1 e.symm)
    obtain ⟨h2, ht2⟩ := ih _ id _ (n + 1) hstep hchain.2
    refine ⟨h2, ?_⟩
    simp only [saveVersions, List.length_cons]
    convert ht2 using 1
    omega

/-- C2: from a well-formed store without a row for `path`, after `N >= 1` captures of
`path` that all succeed (stable readable file, no failing statement, valid key), each
content differing from the one captured before it (and the digest not colliding on the
captured contents), the store has a row for `path`, every row for `path` has the same
id, and the version numbers stored for that id are `1, 2, ..., N` in insertion order:
the first capture stores number `1`, each later one the maximum plus one. -/
theorem saveVersions_numbers (pf : Platform) (L : Libs) (path : String) (db : Store)
    (hkey : aesKeyOk L.key = true) (hwf : db.WF)
    (hnew : ∀ r ∈ db.excel_files, r.file_path ≠ path)
    (cs : List Capture) (datas : List Bytes) (hne : cs ≠ [])
    (hgood : List.Forall₂ Capture.good cs datas)
    (hdiff : List.Chain' (fun a b => a ≠ b) datas)
    (hsha : ∀ a ∈ datas, ∀ b ∈ datas, L.sha a = L.sha b → a = b) :
    ∃ id,
      (∃ r ∈ (saveVersions pf L path db cs).excel_files, r.file_path = path ∧ r.id = id) ∧
      (∀ r ∈ (saveVersions pf L path db cs).excel_files, r.file_path = path → r.id = id) ∧
      versionNumbers (saveVersions pf L path db cs) id = List.range' 1 cs.length := by
  cases hgood with
  | nil => exact absurd rfl hne
  | @cons c d cs1 ds1 hc hrest =>
    have hfirst := saveVersion_tracked_first pf L c path db d hkey hc hwf hnew
    have hchain : List.Chain (fun a b => a ≠ b) (L.sha d) (ds1.map L.sha) := by
      rw [List.chain_map]
      have h1 : List.Chain (fun a b => a ≠ b) d ds1 := hdiff
      rw [List.Chain.iff_mem] at h1
      refine h1.imp ?_
      intro a b hab e
      exact hab.2.2 (hsha a hab.1 b (List.mem_cons_of_mem _ hab.2.1) e)
    obtain ⟨h2, ht⟩ := saveVersions_tracked pf L path hkey cs1 ds1 hrest _ _ _ 1 hfirst hchain
    refine ⟨db.nextId, ?_, ?_, ?_⟩
    · obtain ⟨r, hr, hp, hid, _⟩ := lookupFile_row_mem ht.lookup
      exact ⟨r, hr, hp, hid⟩
    · exact ht.only
    · have := ht.numbers
      simp only [saveVersions, List.length_cons]
      rw [this, Nat.add_comm]

/-- C2 at a concrete input: three captures with contents `[1]`, `[2]`, `[1]` from the
empty store give the version numbers `1, 2, 3`. -/
theorem saveVersions_numbers_witness :
    (∀ a ∈ [[1], [2], [1]], ∀ b ∈ [[1], [2], [1]], demoSha a = demoSha b → a = b) ∧
    ∃ id,
      (∃ r ∈ (saveVersions unix demoLibs "/d/a.xlsx" ⟨[], [], 1⟩
          [demoCapture [1], demoCapture [2], demoCapture [1]]).excel_files,
        r.file_path = "/d/a.xlsx" ∧ r.id = id) ∧
      (∀ r ∈ (saveVersions unix demoLibs "/d/a.xlsx" ⟨[], [], 1⟩
          [demoCapture [1], demoCapture [2], demoCapture [1]]).excel_files,
        r.file_path = "/d/a.xlsx" → r.id = id) ∧
      versionNumbers (saveVersions unix demoLibs "/d/a.xlsx" ⟨[], [], 1⟩
          [demoCapture [1], demoCapture [2], demoCapture [1]]) id = List.range' 1 3 :=
  ⟨by decide,
    saveVersions_numbers unix demoLibs "/d/a.xlsx" ⟨[], [], 1⟩ (by decide)
      ⟨by decide, by decide, by decide⟩ (by decide)
      [demoCapture [1], demoCapture [2], demoCapture [1]] [[1], [2], [1]]
      (List.cons_ne_nil _ _)
      (List.Forall₂.cons ⟨rfl, rfl, rfl⟩
        (List.Forall₂.cons ⟨rfl, rfl, rfl⟩ (List.Forall₂.cons ⟨rfl, rfl, rfl⟩ List.Forall₂.nil)))
      (by simp) (by decide)⟩

/-! ## Capture: deduplication -/

/-- A capture that finds the digest of its content in the row of the path rolls back. -/
theorem saveVersion_same_hash (pf : Platform) (L : Libs) (c : Capture) (path : String)
    (db : Store) (data : Bytes) (id : Nat)
    (hl : lookupFile db path false = .row id (some (L.sha data)))
    (hread : c.readFile = some data) (hlookup : c.faults.lookup = false) :
    (saveVersion pf L c path db).2 = db ∧
    (waitStable c.polls = .returned → c.faults.begin = false →
      (saveVersion pf L c path db).1 = .returned) := by
  unfold saveVersion
  cases hw : waitStable c.polls with
  | panicked f => simp
  | blocked => simp
  | returned =>
    cases hb : c.faults.begin with
    | true => simp [hread]
    | false => simp [hread, hlookup, hl]

/-- After a successful capture the row found for the path holds the digest of the
captured content. -/
theorem saveVersion_good_lookup (pf : Platform) (L : Libs) (c : Capture) (path : String)
    (db : Store) (data : Bytes) (hkey : aesKeyOk L.key = true) (hgood : c.good data) :
    ∃ id, lookupFile (saveVersion pf L c path db).2 path false = .row id (some (L.sha data)) := by
  cases hl : lookupFile db path false with
  | failed =>
    unfold lookupFile at hl
    cases hfd : db.excel_files.find? (fun r => r.file_path == path) <;> simp [hfd] at hl
  | row id x =>
    by_cases hx : x = some (L.sha data)
    · have hfl : c.faults.lookup = false := by rw [hgood.2.2]; rfl
      refine ⟨id, ?_⟩
      rw [(saveVersion_same_hash pf L c path db data id (hx ▸ hl) hgood.2.1 hfl).1]
      exact hx ▸ hl
    · obtain ⟨p, hp⟩ := saveVersion_good_row pf L c path db data id x hkey hgood hl hx
      rw [hp]
      exact ⟨id, lookupFile_updated db path id x _ _ _ hl⟩
  | noRows =>
    obtain ⟨p, hp⟩ := saveVersion_good_new pf L c path db data hkey hgood hl
    rw [hp]
    exact ⟨db.nextId, lookupFile_inserted db path _ _ _ _ hl⟩

/-- C1: in a well-formed store that holds a row for `path` whose `last_hash` is the digest
of `data`, a capture that reads `data` (and whose file lookup succeeds) leaves the whole
store as it was, so no row is added to `excel_versions` and the versions of that file
are the same; when the file is stable and the transaction begins, `saveVersion` returns
normally. In particular, after any successful capture of `data` from any store, such a
capture of the same content leaves the store as the first capture left it. -/
theorem saveVersion_dedup (pf : Platform) (L : Libs) (c : Capture) (path : String)
    (db : Store) (data : Bytes) (r : FileRow) (hwf : db.WF) (hr : r ∈ db.excel_files)
    (hpath : r.file_path = path) (hhash : r.last_hash = some (L.sha data))
    (hread : c.readFile = some data) (hlookup : c.faults.lookup = false) :
    (saveVersion pf L c path db).2 = db ∧
    (saveVersion pf L c path db).2.excel_versions = db.excel_versions ∧
    versionNumbers (saveVersion pf L c path db).2 r.id = versionNumbers db r.id ∧
    (waitStable c.polls = .returned → c.faults.begin = false →
      (saveVersion pf L c path db).1 = .returned) ∧
    (∀ (c1 : Capture) (db0 : Store), c1.good data → aesKeyOk L.key = true →
      (saveVersion pf L c path (saveVersion pf L c1 path db0).2).2 =
        (saveVersion pf L c1 path db0).2) := by
  have hl : lookupFile db path false = .row r.id (some (L.sha data)) := by
    rw [← hpath, ← hhash]
    exact lookupFile_of_mem hwf hr
  have key := saveVersion_same_hash pf L c path db data r.id hl hread hlookup
  refine ⟨key.1, ?_, ?_, key.2, ?_⟩
  · rw [key.1]
  · rw [key.1]
  · intro c1 db0 hgood hkey
    obtain ⟨id, hl1⟩ := saveVersion_good_lookup pf L c1 path db0 data hkey hgood
    exact (saveVersion_same_hash pf L c path _ data id hl1 hread hlookup).1

/-- C1 at a concrete input: the demo store tracks the file with the digest of `[1]`; a
capture of content `[1]` returns and leaves it unchanged, and two captures of `[1]` from
the empty store leave one version. -/
theorem saveVersion_dedup_witness :
    demoStore.WF ∧
    (saveVersion unix demoLibs (demoCapture [1]) "/d/a.xlsx" demoStore).2 = demoStore ∧
    (saveVersion unix demoLibs (demoCapture [1]) "/d/a.xlsx" demoStore).1 = .returned ∧
    versionNumbers
      (saveVersions unix demoLibs "/d/a.xlsx" ⟨[], [], 1⟩ [demoCapture [1], demoCapture [1]])
      1 = [1] :=
  have hwf : demoStore.WF := ⟨by decide, by decide, by decide⟩
  have h := saveVersion_dedup unix demoLibs (demoCapture [1]) "/d/a.xlsx" demoStore [1]
    ⟨1, "/d/a.xlsx", "a.xlsx", some (demoSha [1])⟩ hwf (by decide) rfl rfl rfl rfl
  ⟨hwf, h.1, h.2.2.2.1 (by decide) rfl, by decide⟩

/-! ## Event filter -/

theorem lower_cases (c : Char) :
    c.toLower = c ∨ (65 ≤ c.toNat ∧ c.toNat ≤ 90 ∧ c.toLower = Char.ofNat (c.toNat + 32)) := by
  by_cases h : c.toNat ≥ 65 ∧ c.toNat ≤ 90
  · exact Or.inr ⟨h.1, h.2, by simp [Char.toLower, h]⟩
  · exact Or.inl (by simp only [Char.toLower, h, if_false])

theorem lower_eq_dot (c : Char) (h : c.toLower = '.') : c = '.' := by
  rcases lower_cases c with h1 | ⟨h1, h2, h3⟩
  · rw [← h1]; exact h
  · rw [h3] at h
    generalize c.toNat = n at h1 h2 h
    exfalso
    interval_cases n <;> revert h <;> decide

theorem upper_ne (c : Char) (h1 : 65 ≤ c.toNat) (h2 : c.toNat ≤ 90) :
    c ≠ '/' ∧ c ≠ '\\' ∧ c ≠ '.' := by
  refine ⟨?_, ?_, ?_⟩ <;> (rintro rfl; revert h1 h2; decide)

/-- A character that lower-cases to `x`, `l` or `s` is no separator and no dot. -/
theorem lower_letter_clean (isSep : Char → Bool)
    (hsep : ∀ c, isSep c = true → c = '/' ∨ c = '\\') (c : Char)
    (h : c.toLower = 'x' ∨ c.toLower = 'l' ∨ c.toLower = 's') :
    isSep c = false ∧ c ≠ '.' := by
  have hne : c ≠ '/' ∧ c ≠ '\\' ∧ c ≠ '.' := by
    rcases lower_cases c with h1 | ⟨h1, h2, _⟩
    · rw [h1] at h
      rcases h with rfl | rfl | rfl <;> decide
    · exact upper_ne c h1 h2
  refine ⟨?_, hne.2.2⟩
  cases hs : isSep c with
  | false => rfl
  | true =>
    rcases hsep c hs with e | e
    · exact absurd e hne.1
    · exact absurd e hne.2.1

theorem extLoop_clean (isSep : Char → Bool) (ks : List Char)
    (hks : ∀ c ∈ ks, isSep c = false ∧ c ≠ '.') (before after : List Char) :
    extLoop isSep (ks ++ before) after = extLoop isSep before (ks.reverse ++ after) := by
  induction ks generalizing after with
  | nil => rfl
  | cons k ks ih =>
    have hk := hks k (List.mem_cons_self _ _)
    have ih2 := ih (fun c hc => hks c (List.mem_cons_of_mem _ hc)) (k :: after)
    rw [List.cons_append, extLoop, if_neg (by simp [hk.1]), if_neg hk.2, ih2]
    simp

theorem extLoop_nonempty (isSep : Char → Bool) (r after e : List Char)
    (h : extLoop isSep r after = e) (hne : e ≠ []) :
    ∃ ks rest, r = ks ++ '.' :: rest ∧ e = '.' :: (ks.reverse ++ after) := by
  induction r generalizing after with
  | nil => exact absurd (by simpa [extLoop] using h.symm) hne
  | cons c r ih =>
    unfold extLoop at h
    by_cases hs : isSep c = true
    · rw [if_pos hs] at h
      exact absurd h.symm hne
    · rw [if_neg hs] at h
      by_cases hd : c = '.'
      · rw [if_pos hd] at h
        exact ⟨[], r, by simp [hd], by simp [← h, hd]⟩
      · rw [if_neg hd] at h
        obtain ⟨ks, rest, hr, he⟩ := ih (c :: after) h
        exact ⟨c :: ks, rest, by simp [hr], by simp [he]⟩

/-- The extension found by `filepath.Ext`, lower-cased, is a dot followed by letters
from `x`, `l`, `s` exactly when the lower-cased path ends so. -/
theorem ext_lower_iff (isSep : Char → Bool)
    (hsep : ∀ c, isSep c = true → c = '/' ∨ c = '\\') (l suf : List Char)
    (hsuf : ∀ d ∈ suf, d = 'x' ∨ d = 'l' ∨ d = 's') :
    (extLoop isSep l.reverse []).map Char.toLower = '.' :: suf ↔
      ('.' :: suf) <:+ l.map Char.toLower := by
  constructor
  · intro h
    have hne : extLoop isSep l.reverse [] ≠ [] := by
      intro e
      rw [e] at h
      simp at h
    obtain ⟨ks, rest, hr, he⟩ := extLoop_nonempty isSep l.reverse [] _ rfl hne
    have hl : l = rest.reverse ++ '.' :: ks.reverse := by
      have := congrArg List.reverse hr
      simpa using this
    rw [he] at h
    simp only [List.append_nil, List.map_cons, List.cons.injEq] at h
    rw [hl, List.map_append, List.map_cons, h.2]
    exact ⟨_, by simp [Char.toLower]; rfl⟩
  · rintro ⟨t, ht⟩
    obtain ⟨l1, l2, hl, _, h2⟩ := List.map_eq_append_iff.mp ht.symm
    obtain ⟨d, ks, hl2, hd, hks⟩ := List.map_eq_cons_iff.mp h2
    have hdot := lower_eq_dot d hd
    have hclean : ∀ c ∈ ks.reverse, isSep c = false ∧ c ≠ '.' := by
      intro c hc
      refine lower_letter_clean isSep hsep c (hsuf _ ?_)
      rw [← hks]
      exact List.mem_map_of_mem _ (List.mem_reverse.mp hc)
    have hdsep : isSep '.' = false := by
      cases hs : isSep '.' with
      | false => rfl
      | true => rcases hsep _ hs with e | e <;> exact absurd e (by decide)
    rw [hl, hl2, hdot, List.reverse_append, List.reverse_cons, List.append_assoc,
      extLoop_clean isSep _ hclean]
    simp [extLoop, hdsep, hks]

theorem isExcel_iff (pf : Platform)
    (hsep : ∀ c, pf.isPathSeparator c = true → c = '/' ∨ c = '\\') (p : String) :
    isExcel pf p = true ↔ hasExcelSuffix p := by
  have h1 := ext_lower_iff pf.isPathSeparator hsep p.data ['x', 'l', 's'] (by simp)
  have h2 := ext_lower_iff pf.isPathSeparator hsep p.data ['x', 'l', 's', 'x'] (by simp)
  unfold isExcel hasExcelSuffix ToLower Ext
  simp only [Bool.or_eq_true, beq_iff_eq, String.ext_iff]
  exact or_congr h1 h2

theorem handleEvent_dropped (pf : Platform) (s : Debounce) (name : String)
    (h : qualifies pf name = false) : handleEvent pf s name = s := by
  have hc : (!isExcel pf name || HasPrefix (Base pf name) "~$") = true := by
    unfold qualifies at h
    cases h1 : isExcel pf name <;> cases h2 : HasPrefix (Base pf name) "~$" <;> simp_all
  unfold handleEvent
  rw [if_pos hc]

theorem handleEvent_kept (pf : Platform) (s : Debounce) (name : String)
    (h : qualifies pf name = true) :
    handleEvent pf s name =
      { s with
        timers :=
          (match s.debounce.lookup name with
            | some i => s.timers.map (fun t => if t.id == i then t.Stop else t)
            | none => s.timers) ++
          [⟨s.timers.length, name, s.now + quietPeriod, false, false⟩]
        debounce := (name, s.timers.length) :: s.debounce.filter (fun kv => kv.1 != name) } := by
  have hc : ¬ (!isExcel pf name || HasPrefix (Base pf name) "~$") = true := by
    unfold qualifies at h
    cases h1 : isExcel pf name <;> cases h2 : HasPrefix (Base pf name) "~$" <;> simp_all
  unfold handleEvent
  rw [if_neg hc]
  cases s.debounce.lookup name <;> simp

/-- C8: an event is kept exactly when its name, compared case-insensitively, ends in
`.xls` or `.xlsx` (which is what `isExcel` computes from `filepath.Ext`) and its base
name does not start with `~$`. A kept event arms a new timer for the name, due one
quiet period later, and records it in the map; any other event leaves the debounce
state unchanged. `Report.XLSX` is kept; `~$Report.xlsx`, `a.xlsm` and `xlsx` are
dropped. -/
theorem handleEvent_filter (pf : Platform)
    (hsep : ∀ c, pf.isPathSeparator c = true → c = '/' ∨ c = '\\')
    (s : Debounce) (name : String) :
    (qualifies pf name = true ↔
      hasExcelSuffix name ∧ HasPrefix (Base pf name) "~$" = false) ∧
    (qualifies pf name = true →
      ∃ old : List Timer, old.length = s.timers.length ∧
        (handleEvent pf s name).timers =
          old ++ [⟨old.length, name, s.now + quietPeriod, false, false⟩] ∧
        (handleEvent pf s name).debounce.lookup name = some old.length) ∧
    (qualifies pf name = false → handleEvent pf s name = s) ∧
    qualifies unix "Report.XLSX" = true ∧ qualifies unix "~$Report.xlsx" = false ∧
    qualifies unix "a.xlsm" = false ∧ qualifies unix "xlsx" = false := by
  refine ⟨?_, ?_, handleEvent_dropped pf s name, by decide, by decide, by decide, by decide⟩
  · rw [← isExcel_iff pf hsep name]
    unfold qualifies
    cases isExcel pf name <;> cases HasPrefix (Base pf name) "~$" <;> simp
  · intro h
    rw [handleEvent_kept pf s name h]
    cases s.debounce.lookup name with
    | none => exact ⟨s.timers, rfl, by simp, by simp [List.lookup]⟩
    | some i =>
      exact ⟨s.timers.map (fun t => if t.id == i then t.Stop else t), by simp, by simp,
        by simp [List.lookup]⟩

/-- C8 at a concrete input: the Unix platform, a kept and a dropped name. -/
theorem handleEvent_filter_witness :
    (∀ c, unix.isPathSeparator c = true → c = '/' ∨ c = '\\') ∧
    (qualifies unix "/docs/Report.XLSX" = true ↔
      hasExcelSuffix "/docs/Report.XLSX" ∧
        HasPrefix (Base unix "/docs/Report.XLSX") "~$" = false) ∧
    handleEvent unix Debounce.init "/docs/~$Report.xlsx" = Debounce.init :=
  have hsep : ∀ c, unix.isPathSeparator c = true → c = '/' ∨ c = '\\' := by
    intro c hc
    exact Or.inl (by simpa [unix] using hc)
  ⟨hsep, (handleEvent_filter unix hsep Debounce.init "/docs/Report.XLSX").1,
    (handleEvent_filter unix hsep Debounce.init "/docs/~$Report.xlsx").2.2.1 (by decide)⟩

/-! ## Debounce -/

theorem Timer.Stop_id (t : Timer) : t.Stop.id = t.id := by
  unfold Timer.Stop
  split <;> rfl

theorem Timer.Stop_armed (t : Timer) : t.Stop.armed = false := by
  unfold Timer.Stop
  cases h : t.armed
  · simp [h]
  · simp [Timer.armed]

theorem lookup_filter_ne (deb : List (String × Nat)) (name q : String) (h : q ≠ name) :
    (deb.filter (fun kv => kv.1 != name)).lookup q = deb.lookup q := by
  induction deb with
  | nil => rfl
  | cons kv deb ih =>
    obtain ⟨k, i⟩ := kv
    by_cases hk : k = name
    · subst hk
      have hq : (q == k) = false := by simp [h]
      simp [List.filter_cons, List.lookup_cons, hq, ih]
    · by_cases hqk : q = k
      · simp [List.filter_cons, hk, List.lookup_cons, hqk]
      · have hq : (q == k) = false := by simp [hqk]
        simp [List.filter_cons, hk, List.lookup_cons, hq, ih]

theorem Inv_init : Debounce.init.Inv :=
  ⟨rfl, fun _ h => by simp [Debounce.init] at h, fun _ h => by simp [Debounce.init] at h⟩

/-- In a state that satisfies the invariant, the timers left after `handleEvent` stopped
the mapped one: their ids, and the fact that none is armed for the name. -/
theorem stopped_timers (s : Debounce) (hs : s.Inv) (name : String) :
    ∃ old : List Timer,
      old = (match s.debounce.lookup name with
        | some i => s.timers.map (fun t => if t.id == i then t.Stop else t)
        | none => s.timers) ∧
      old.map (fun t => t.id) = List.range s.timers.length ∧
      old.length = s.timers.length ∧
      ∀ t ∈ old, t.armed = true → t ∈ s.timers ∧ t.name ≠ name := by
  refine ⟨_, rfl, ?_, ?_, ?_⟩
  · cases s.debounce.lookup name with
    | none => exact hs.ids
    | some i =>
      rw [← hs.ids, List.map_map]
      apply List.map_congr_left
      intro t _
      simp only [Function.comp]
      split
      · exact Timer.Stop_id t
      · rfl
  · cases s.debounce.lookup name <;> simp
  · intro t ht harmed
    cases hl : s.debounce.lookup name with
    | none =>
      rw [hl] at ht
      refine ⟨ht, fun hn => ?_⟩
      have := hs.armed_mapped t ht harmed
      rw [hn, hl] at this
      exact absurd this (by simp)
    | some i =>
      rw [hl] at ht
      obtain ⟨t0, ht0, rfl⟩ := List.mem_map.mp ht
      by_cases hi : t0.id = i
      · simp only [hi, beq_self_eq_true, if_true, Timer.Stop_armed] at harmed
        exact absurd harmed (by simp)
      · have hb : (t0.id == i) = false := by simp [hi]
        simp only [hb, Bool.false_eq_true, if_false] at harmed ⊢
        refine ⟨ht0, fun hn => ?_⟩
        have := hs.armed_mapped t0 ht0 harmed
        rw [hn, hl] at this
        exact hi (Option.some.inj this).symm

theorem Inv_handleEvent (pf : Platform) (s : Debounce) (hs : s.Inv) (name : String) :
    (handleEvent pf s name).Inv := by
  cases hq : qualifies pf name with
  | false => rw [handleEvent_dropped pf s name hq]; exact hs
  | true =>
    rw [handleEvent_kept pf s name hq]
    obtain ⟨old, hold, hids, hlen, harm⟩ := stopped_timers s hs name
    rw [← hold]
    refine ⟨?_, ?_, ?_⟩
    · simp [hids, hlen, List.range_succ]
    · intro t ht harmed
      rcases List.mem_append.mp ht with h | h
      · obtain ⟨hmem, hne⟩ := harm t h harmed
        have := hs.armed_mapped t hmem harmed
        simp only [List.lookup_cons]
        have hb : (t.name == name) = false := by simp [hne]
        rw [hb, lookup_filter_ne _ _ _ hne]
        exact this
      · simp only [List.mem_singleton] at h
        subst h
        simp [List.lookup_cons]
    · intro t ht harmed
      rcases List.mem_append.mp ht with h | h
      · exact hs.armed_future t (harm t h harmed).1 harmed
      · simp only [List.mem_singleton] at h
        subst h
        simp [quietPeriod]

theorem Inv_advance (s : Debounce) (hs : s.Inv) (t : Nat) : (advance s t).Inv := by
  have key : ∀ tm ∈ (advance s t).timers, tm.armed = true →
      tm ∈ s.timers ∧ t < tm.deadline := by
    intro tm htm harmed
    simp only [advance] at htm
    obtain ⟨t0, ht0, rfl⟩ := List.mem_map.mp htm
    cases hd : t0.due t with
    | true =>
      simp [hd, Timer.armed] at harmed
    | false =>
      simp only [hd, Bool.false_eq_true, if_false] at harmed ⊢
      refine ⟨ht0, ?_⟩
      simp only [Timer.due, harmed, Bool.true_and, decide_eq_false_iff_not] at hd
      omega
  refine ⟨?_, ?_, ?_⟩
  · simp only [advance, List.length_map, List.map_map]
    rw [← hs.ids]
    apply List.map_congr_left
    intro tm _
    simp only [Function.comp]
    split <;> rfl
  · intro tm htm harmed
    exact hs.armed_mapped tm (key tm htm harmed).1 harmed
  · intro tm htm harmed
    have h1 := hs.armed_future tm (key tm htm harmed).1 harmed
    have h2 := (key tm htm harmed).2
    simp only [advance]
    omega

theorem Inv_of_reachable (pf : Platform) (s : Debounce) (h : Reachable pf s) : s.Inv := by
  induction h with
  | init => exact Inv_init
  | event s name _ ih => exact Inv_handleEvent pf s ih name
  | tick s t _ ih => exact Inv_advance s ih t

theorem fire_armed (tm : Timer) (t : Nat) (name : String) :
    ((if tm.due t then { tm with fired := true } else tm).armed &&
      (if tm.due t then { tm with fired := true } else tm).name == name) =
    ((tm.armed && tm.name == name) && decide (t < tm.deadline)) := by
  obtain ⟨i, nm, dl, st, fr⟩ := tm
  by_cases hd : dl ≤ t
  · have h2 : ¬ t < dl := by omega
    cases st <;> cases fr <;> simp [Timer.due, Timer.armed, hd, h2]
  · have h2 : t < dl := by omega
    cases st <;> cases fr <;> simp [Timer.due, Timer.armed, hd, h2]

theorem fire_deadline (tm : Timer) (t : Nat) :
    (if tm.due t then { tm with fired := true } else tm).deadline = tm.deadline := by
  split <;> rfl

theorem pending_fire (l : List Timer) (t : Nat) (name : String) :
    (((l.map (fun tm => if tm.due t then { tm with fired := true } else tm)).filter
      (fun tm => tm.armed && tm.name == name)).map (fun tm => tm.deadline)) =
    ((l.filter (fun tm => tm.armed && tm.name == name)).map (fun tm => tm.deadline)).filter
      (fun d => decide (t < d)) := by
  induction l with
  | nil => rfl
  | cons tm l ih =>
    have h1 := fire_armed tm t name
    have h2 := fire_deadline tm t
    simp only [List.map_cons, List.filter_cons, h1]
    cases ha : (tm.armed && tm.name == name) <;> cases hd : decide (t < tm.deadline) <;>
      simp [ih, h2, List.filter_cons, hd]

theorem captures_fire (l : List Timer) (t : Nat) (name : String) :
    ((((l.filter (fun tm => tm.due t)).map (fun tm => (tm.name, tm.deadline))).filter
      (fun c => c.1 == name)).map (fun c => c.2)) =
    ((l.filter (fun tm => tm.armed && tm.name == name)).map (fun tm => tm.deadline)).filter
      (fun d => decide (d ≤ t)) := by
  induction l with
  | nil => rfl
  | cons tm l ih =>
    simp only [List.filter_cons, Timer.due]
    cases ha : tm.armed <;> cases hn : (tm.name == name) <;>
      cases hd : decide (tm.deadline ≤ t) <;>
      simp_all [List.filter_cons, Timer.due]

theorem pending_advance (s : Debounce) (t : Nat) (name : String) :
    pending (advance s t) name = (pending s name).filter (fun d => decide (t < d)) ∧
    capturesOf (advance s t) name =
      capturesOf s name ++ (pending s name).filter (fun d => decide (d ≤ t)) ∧
    (advance s t).now = max s.now t := by
  refine ⟨pending_fire s.timers t name, ?_, rfl⟩
  simp only [capturesOf, advance, List.filter_append, List.map_append]
  rw [captures_fire s.timers t name]
  rfl

theorem pending_handleEvent (pf : Platform) (s : Debounce) (hs : s.Inv) (name : String)
    (hq : qualifies pf name = true) :
    pending (handleEvent pf s name) name = [s.now + quietPeriod] ∧
    capturesOf (handleEvent pf s name) name = capturesOf s name ∧
    (handleEvent pf s name).now = s.now := by
  rw [handleEvent_kept pf s name hq]
  obtain ⟨old, hold, _, _, harm⟩ := stopped_timers s hs name
  rw [← hold]
  refine ⟨?_, rfl, rfl⟩
  have hnil : old.filter (fun t => t.armed && t.name == name) = [] := by
    simp only [List.filter_eq_nil_iff]
    intro t ht h
    simp only [Bool.and_eq_true, beq_iff_eq] at h
    exact (harm t ht h.1).2 h.2
  have hnew : (⟨s.timers.length, name, s.now + quietPeriod, false, false⟩ : Timer).armed
      = true := rfl
  simp [pending, armedFor, List.filter_append, hnil, List.filter_cons, hnew]

theorem length_le_one_of_const {l : List Nat} (hnd : l.Nodup) (a : Nat)
    (hall : ∀ x ∈ l, x = a) : l.length ≤ 1 := by
  match l, hnd, hall with
  | [], _, _ => simp
  | [_], _, _ => simp
  | x :: y :: _, hnd, hall =>
    have hx := hall x (by simp)
    have hy := hall y (by simp)
    rw [List.nodup_cons] at hnd
    exact absurd (by simp [hx, hy]) hnd.1

/-- The invariant leaves at most one armed timer per name. -/
theorem armedFor_le_one (s : Debounce) (hs : s.Inv) (name : String) :
    (armedFor s name).length ≤ 1 := by
  have hsub : ((armedFor s name).map (fun t => t.id)).Sublist (s.timers.map (fun t => t.id)) :=
    (List.filter_sublist s.timers).map _
  have hnd : ((armedFor s name).map (fun t => t.id)).Nodup := by
    refine List.Nodup.sublist hsub ?_
    rw [hs.ids]
    exact List.nodup_range _
  cases hl : s.debounce.lookup name with
  | none =>
    have hnil : armedFor s name = [] := by
      unfold armedFor
      simp only [List.filter_eq_nil_iff, Bool.and_eq_true, beq_iff_eq]
      rintro t ht ⟨ha, hn⟩
      have := hs.armed_mapped t ht ha
      rw [hn, hl] at this
      exact absurd this (by simp)
    simp [hnil]
  | some i =>
    have hall : ∀ x ∈ (armedFor s name).map (fun t => t.id), x = i := by
      intro x hx
      obtain ⟨t, ht, rfl⟩ := List.mem_map.mp hx
      unfold armedFor at ht
      simp only [List.mem_filter, Bool.and_eq_true, beq_iff_eq] at ht
      have := hs.armed_mapped t ht.1 ht.2.1
      rw [ht.2.2, hl] at this
      exact (Option.some.inj this).symm
    simpa using length_le_one_of_const hnd i hall

theorem eventAt_spec (pf : Platform) (s : Debounce) (hs : s.Inv) (name : String)
    (hq : qualifies pf name = true) (t : Nat) (hnow : s.now ≤ t) :
    (eventAt pf s t name).Inv ∧ (eventAt pf s t name).now = t ∧
    pending (eventAt pf s t name) name = [t + quietPeriod] ∧
    capturesOf (eventAt pf s t name) name = capturesOf (advance s t) name := by
  have hi := Inv_advance s hs t
  obtain ⟨h1, h2, h3⟩ := pending_handleEvent pf (advance s t) hi name hq
  have hn : (advance s t).now = t := by simp only [advance]; omega
  refine ⟨Inv_handleEvent pf _ hi name, ?_, ?_, ?_⟩
  · exact h3.trans hn
  · rw [hn] at h1; exact h1
  · exact h2

theorem burst_spec (pf : Platform) (name : String) (hq : qualifies pf name = true)
    (ts : List Nat) :
    ∀ (s : Debounce) (t0 : Nat), s.Inv → s.now = t0 → pending s name = [t0 + quietPeriod] →
      List.Chain (fun a b => a ≤ b ∧ b < a + quietPeriod) t0 ts →
      (burst pf name s ts).Inv ∧ (burst pf name s ts).now = ts.getLastD t0 ∧
      pending (burst pf name s ts) name = [ts.getLastD t0 + quietPeriod] ∧
      capturesOf (burst pf name s ts) name = capturesOf s name := by
  induction ts with
  | nil =>
    intro s t0 hs hnow hp _
    exact ⟨hs, hnow, hp, rfl⟩
  | cons t ts ih =>
    intro s t0 hs hnow hp hchain
    rw [List.chain_cons] at hchain
    obtain ⟨⟨hle, hlt⟩, hrest⟩ := hchain
    obtain ⟨e1, e2, e3, e4⟩ := eventAt_spec pf s hs name hq t (by omega)
    obtain ⟨a1, a2, _⟩ := pending_advance s t name
    have hcap : capturesOf (eventAt pf s t name) name = capturesOf s name := by
      rw [e4, a2, hp]
      have : ¬ (t0 + quietPeriod ≤ t) := by omega
      simp [this]
    obtain ⟨b1, b2, b3, b4⟩ := ih (eventAt pf s t name) t e1 e2 e3 hrest
    have hlast : (t :: ts).getLastD t0 = ts.getLastD t := by
      cases ts <;> rfl
    rw [hlast]
    exact ⟨b1, b2, b3, b4.trans hcap⟩

/-- C7: from any reachable state, a burst of `N >= 1` kept events for one name, the
first at `t1` and each later one less than the quiet period after the one before,
triggers exactly one capture of that name, one quiet period after the last event: once
the clock reaches `T`, the captures of the name are those made up to the first event,
followed by the single one at `last + quietPeriod` if `T` has reached it and by nothing
before. In every reachable state at most one timer per name is armed. -/
theorem debounce_coalesces (pf : Platform) (s : Debounce) (hs : Reachable pf s)
    (name : String) (hq : qualifies pf name = true) (t1 : Nat) (ts : List Nat)
    (hnow : s.now ≤ t1)
    (hgap : List.Chain (fun a b => a ≤ b ∧ b < a + quietPeriod) t1 ts) (T : Nat) :
    capturesOf (advance (burst pf name s (t1 :: ts)) T) name =
      capturesOf (advance s t1) name ++
        (if ts.getLastD t1 + quietPeriod ≤ T then [ts.getLastD t1 + quietPeriod] else []) ∧
    (∀ n, (armedFor (burst pf name s (t1 :: ts)) n).length ≤ 1) ∧
    (∀ s2, Reachable pf s2 → ∀ n, (armedFor s2 n).length ≤ 1) := by
  have hinv := Inv_of_reachable pf s hs
  obtain ⟨e1, e2, e3, e4⟩ := eventAt_spec pf s hinv name hq t1 hnow
  obtain ⟨b1, _, b3, b4⟩ := burst_spec pf name hq ts (eventAt pf s t1 name) t1 e1 e2 e3 hgap
  obtain ⟨_, a2, _⟩ := pending_advance (burst pf name (eventAt pf s t1 name) ts) T name
  refine ⟨?_, ?_, ?_⟩
  · simp only [burst]
    rw [a2, b3, b4, e4]
    generalize ts.getLastD t1 + quietPeriod = x
    by_cases h : x ≤ T <;> simp [h]
  · intro n
    exact armedFor_le_one _ b1 n
  · intro s2 h2 n
    exact armedFor_le_one s2 (Inv_of_reachable pf s2 h2) n

/-- C7 at a concrete input: events at 0, 200 and 500 ms give one capture, at 1500 ms. -/
theorem debounce_coalesces_witness :
    qualifies unix "/docs/a.xlsx" = true ∧
    capturesOf (advance (burst unix "/docs/a.xlsx" Debounce.init [0, 200, 500]) 1500)
        "/docs/a.xlsx" =
      capturesOf (advance Debounce.init 0) "/docs/a.xlsx" ++
        (if [200, 500].getLastD 0 + quietPeriod ≤ 1500
          then [[200, 500].getLastD 0 + quietPeriod] else []) ∧
    capturesOf (advance (burst unix "/docs/a.xlsx" Debounce.init [0, 200, 500]) 1500)
        "/docs/a.xlsx" = [1500] :=
  ⟨by decide,
    (debounce_coalesces unix Debounce.init Reachable.init "/docs/a.xlsx" (by decide) 0
      [200, 500] (by decide) (by simp [quietPeriod]) 1500).1,
    by decide⟩

end ExcelVC
